import Mathlib

/-!
Shallow embedding of the mandelbrot-set animation renderer (Rust sources
`src/lib.rs` and `src/main.rs`) and proofs about its keyframe interpolation,
coordinate mapping, escape-time coloring, parallel frame collection and
animation assembly.

Rust `f32` values are modelled as exact rationals (`ℚ`) for the arithmetic
that the claims quantify over, and as reals (`ℝ`) where the code applies
logarithms and square roots.  Rust `usize`/`u32`/`u16` become `ℕ`.  A Rust
operation that can panic (unsigned subtraction underflow) is modelled in
`Option`, with `none` standing for the panic.
-/

namespace Mandelbrot

/-- `usize` subtraction: panics (`none`) on underflow, as in Rust. -/
def checkedSub (a b : ℕ) : Option ℕ :=
  if b ≤ a then some (a - b) else none

/-- `Keyframe` from `lib.rs`: a viewport over the complex plane tagged with
the output frame index it applies to. -/
structure Keyframe where
  x_center : ℚ
  y_center : ℚ
  x_size : ℚ
  y_size : ℚ
  index : ℕ
  deriving DecidableEq, Repr

instance : Inhabited Keyframe := ⟨⟨0, 0, 0, 0, 0⟩⟩

/-- `Keyframe::interpolate` from `lib.rs`:
`t = (idx - self.index) as f32 / (other.index - self.index) as f32` and
`flerp a b = a + (b - a) * t` applied to the four viewport fields; the
result carries index `idx`.  The two `usize` subtractions can underflow
(panic), modelled by `Option`. -/
def Keyframe.interpolate (self : Keyframe) (other : Keyframe) (idx : ℕ) :
    Option Keyframe := do
  let n ← checkedSub idx self.index
  let d ← checkedSub other.index self.index
  let t : ℚ := (n : ℚ) / (d : ℚ)
  let flerp : ℚ → ℚ → ℚ := fun a b => a + (b - a) * t
  pure { x_center := flerp self.x_center other.x_center
         y_center := flerp self.y_center other.y_center
         x_size := flerp self.x_size other.x_size
         y_size := flerp self.y_size other.y_size
         index := idx }

/-- The keyframe `Keyframe::interpolate` produces when its `usize`
subtractions do not underflow, as a total function (the subtractions are
`ℕ`-truncated here; `interpolate_eq_some` relates the two). -/
def lerpKF (A B : Keyframe) (idx : ℕ) : Keyframe :=
  let t : ℚ := ((idx - A.index : ℕ) : ℚ) / ((B.index - A.index : ℕ) : ℚ)
  { x_center := A.x_center + (B.x_center - A.x_center) * t
    y_center := A.y_center + (B.y_center - A.y_center) * t
    x_size := A.x_size + (B.x_size - A.x_size) * t
    y_size := A.y_size + (B.y_size - A.y_size) * t
    index := idx }

/-- `Keyframe::get_coordinate` from `lib.rs`: maps pixel `(x, y)` of a
`width × height` image into the complex plane, flipping the vertical axis. -/
def Keyframe.get_coordinate (self : Keyframe) (x y width height : ℕ) :
    ℚ × ℚ :=
  let x_offset := self.x_center - self.x_size / 2
  let cx := ((x : ℚ) / (width : ℚ)) * self.x_size + x_offset
  let y_offset := self.y_center + self.y_size / 2
  let cy := y_offset - ((y : ℚ) / (height : ℚ)) * self.y_size
  (cx, cy)

/-- `slice::windows(2)` specialised to pairs: all adjacent pairs, in order. -/
def windows2 : List Keyframe → List (Keyframe × Keyframe)
  | a :: b :: rest => (a, b) :: windows2 (b :: rest)
  | _ => []

/-- The Rust range `start.index..end.index` as a list: empty when the end
does not exceed the start, exactly as in Rust. -/
def indexRange (a b : Keyframe) : List ℕ :=
  List.range' a.index (b.index - a.index)

/-- `get_interpolated_frames` from `lib.rs`: for every adjacent window
`(start, end)` and every `idx` in `start.index..end.index`, interpolate.
`none` models a panic inside the iterator chain. -/
def get_interpolated_frames (keyframes : List Keyframe) :
    Option (List Keyframe) := do
  let chunks ← (windows2 keyframes).mapM fun w =>
    (indexRange w.1 w.2).mapM fun idx => w.1.interpolate w.2 idx
  pure chunks.flatten

/-- `Complex` from `main.rs`: a plain two-field record. -/
structure Complex where
  x : ℚ
  y : ℚ
  deriving DecidableEq, Repr

/-- `impl Add for Complex` from `main.rs`. -/
instance : Add Complex :=
  ⟨fun a b => ⟨a.x + b.x, a.y + b.y⟩⟩

/-- `impl Mul for Complex` from `main.rs`. -/
instance : Mul Complex :=
  ⟨fun a b => ⟨a.x * b.x - a.y * b.y, a.x * b.y + a.y * b.x⟩⟩

/-- `Complex::norm` from `main.rs`: the squared norm `x² + y²`. -/
def Complex.norm (z : Complex) : ℚ :=
  z.x * z.x + z.y * z.y

/-- `MAX_ITER` from `main.rs`. -/
def MAX_ITER : ℕ := 255

/-- The `while` loop of `calc_pixel` in `main.rs`:
`while z.norm() < 8192.0 && iters < MAX_ITER { z = z*z + c; iters += 1 }`.
`fuel` is an upper bound on the remaining steps; the loop guard
`iters < MAX_ITER` itself bounds the iteration, so any
`fuel ≥ MAX_ITER - iters` gives the loop's exact result. -/
def mandelLoop (c : Complex) : ℕ → Complex → ℕ → Complex × ℕ
  | 0, z, iters => (z, iters)
  | fuel + 1, z, iters =>
    if z.norm < 8192 ∧ iters < MAX_ITER then
      mandelLoop c fuel (z * z + c) (iters + 1)
    else
      (z, iters)

/-- The state `(z, iters)` of `calc_pixel`'s loop at exit, for input `(x, y)`. -/
def calcState (p : ℚ × ℚ) : Complex × ℕ :=
  mandelLoop ⟨p.1, p.2⟩ MAX_ITER ⟨0, 0⟩ 0

/-- The iteration counter of `calc_pixel`'s loop at exit. -/
def calcIters (p : ℚ × ℚ) : ℕ :=
  (calcState p).2

/-- The value of `z` at exit of `calc_pixel`'s loop. -/
def calcZ (p : ℚ × ℚ) : Complex :=
  (calcState p).1

/-- `Pixel` from `lib.rs`: four 8-bit channels. -/
structure Pixel where
  r : ℕ
  g : ℕ
  b : ℕ
  a : ℕ
  deriving DecidableEq, Repr

/-- Rust's saturating `f32 → u8` cast: truncate toward zero, clamp to
`[0, 255]` (for a real argument; reals have no NaN). -/
noncomputable def u8cast (v : ℝ) : ℕ :=
  min 255 (Int.toNat ⌊v⌋)

/-- `Pixel::from_rgb` from `lib.rs`: each channel is `(255.0 * v) as u8`,
alpha fixed to 255. -/
noncomputable def Pixel.from_rgb (r g b : ℝ) : Pixel :=
  { r := u8cast (255 * r), g := u8cast (255 * g), b := u8cast (255 * b),
    a := 255 }

/-- `calc_pixel` from `main.rs`: run the escape-time loop, then color.
`LOG2_10` is `log2 10`; `log2` is `Real.logb 2`. -/
noncomputable def calc_pixel (p : ℚ × ℚ) : Pixel :=
  let z := calcZ p
  let iters := calcIters p
  if iters < MAX_ITER then
    let log_zn := Real.logb 2 (Real.logb 2 (z.norm : ℝ) / 2) / Real.logb 2 10
    let nu := log_zn
    let intensity := ((iters : ℝ) + 1 - nu) / (MAX_ITER : ℝ)
    Pixel.from_rgb (intensity ^ 2) intensity (Real.sqrt intensity)
  else
    Pixel.from_rgb 0 0 0

/-- The escaped-branch color exactly as the specification words it:
`nu = log2(log2(|z|²)/2)/log2(10)`, `intensity = (iters + 1 - nu)/MAX_ITER`,
channels `(intensity², intensity, sqrt intensity)`, each scaled to 8 bits by
multiplying by 255 and truncating. -/
noncomputable def specEscapeColor (iters : ℕ) (normSq : ℚ) : Pixel :=
  let nu := Real.logb 2 (Real.logb 2 (normSq : ℝ) / 2) / Real.logb 2 10
  let intensity := ((iters : ℝ) + 1 - nu) / (MAX_ITER : ℝ)
  { r := u8cast (255 * intensity ^ 2),
    g := u8cast (255 * intensity),
    b := u8cast (255 * Real.sqrt intensity),
    a := 255 }

/-- The payload of a `gif::Frame`: its per-frame delay (centiseconds) and
its byte buffer, the only parts of the external frame type the program
touches. -/
structure GifFrame where
  delay : ℕ
  buffer : List ℕ
  deriving DecidableEq, Repr

/-- `Frame` from `lib.rs`: a wrapper around a `gif::Frame`. -/
structure Frame where
  inner : GifFrame
  deriving DecidableEq, Repr

/-- `Frame::empty` from `lib.rs`: a 0×0 frame with an empty buffer. -/
def Frame.empty : Frame := ⟨⟨0, []⟩⟩

/-- The four bytes a `Pixel` contributes to an RGBA buffer, in order. -/
def Pixel.bytes (p : Pixel) : List ℕ := [p.r, p.g, p.b, p.a]

/-- `Frame::from_pixels` from `lib.rs`: flatten the pixels into an RGBA byte
buffer (the `assert!` on the pixel count is established separately by
`draw_frame_length`). -/
def Frame.from_pixels (width height : ℕ) (pixels : List Pixel) : Frame :=
  let _ := width * height
  ⟨⟨0, pixels.flatMap Pixel.bytes⟩⟩

/-- `draw_frame` from `main.rs`: row-major nested traversal, `y` outer,
`x` inner, each pixel colored from its mapped complex coordinate. -/
noncomputable def draw_frame (width height : ℕ) (keyframe : Keyframe) :
    List Pixel :=
  (List.range height).flatMap fun y =>
    (List.range width).map fun x =>
      calc_pixel (keyframe.get_coordinate x y width height)

/-- `WIDTH` from `main.rs`. -/
def WIDTH : ℕ := 500

/-- `HEIGHT` from `main.rs`. -/
def HEIGHT : ℕ := 500

/-- `FRAMERATE` from `main.rs`. -/
def FRAMERATE : ℚ := 24

/-- `KEYFRAMES` from `main.rs`. -/
def KEYFRAMES : List Keyframe :=
  [ { x_center := -3/4, y_center := 0, x_size := 7/2, y_size := 7/2,
      index := 0 },
    { x_center := -27/20, y_center := 0, x_size := 1/5, y_size := 1/5,
      index := 100 },
    { x_center := -3/4, y_center := 0, x_size := 7/2, y_size := 7/2,
      index := 300 } ]

/-- The interpolated viewport sequence `frames_native` starts from. -/
def interpolatedKeyframes : List Keyframe :=
  (get_interpolated_frames KEYFRAMES).getD []

/-- The work a single thread of `frames_native` does for slot `index`:
render the viewport and build the frame. -/
noncomputable def renderOne (keyframe : Keyframe) : Frame :=
  Frame.from_pixels WIDTH HEIGHT (draw_frame WIDTH HEIGHT keyframe)

/-- The slot-writing discipline of `frames_native`: start from a
preallocated list of empty frames and let each completed task write its
result into its own slot `i`; `order` is the order in which the tasks
complete, which the scheduler chooses. -/
def renderSlots (n : ℕ) (render : ℕ → Frame) (order : List ℕ) :
    List Frame :=
  order.foldl (fun acc i => acc.set i (render i)) (List.replicate n Frame.empty)

/-- `frames_native` from `main.rs`, parametrised by the completion order of
the worker threads: each worker `i` renders viewport `i` and writes slot
`i` of the shared, preallocated frame list; the main thread joins them all
and returns the list. -/
noncomputable def frames_native (order : List ℕ) : List Frame :=
  renderSlots interpolatedKeyframes.length
    (fun i => renderOne (interpolatedKeyframes.getD i default)) order

/-- `AnimationError` from `lib.rs`. -/
inductive AnimationError where
  | FileCreateError
  | EncoderError
  | FrameCreateError
  | FrameEncodeError
  deriving DecidableEq, Repr

/-- `Animation` from `lib.rs`: the computed per-frame delay and the frames
collected so far (the encoder/file handle is external state, abstracted). -/
structure Animation where
  delay : ℕ
  frames : List GifFrame
  deriving DecidableEq, Repr

/-- Rust's saturating `f32 → u16` cast: truncate toward zero, clamp to
`[0, 65535]` (for a rational argument). -/
def u16cast (v : ℚ) : ℕ :=
  min 65535 (Int.toNat ⌊v⌋)

/-- `Animation::new` from `lib.rs`: create the file, then the encoder —
either can fail, modelled by the `fileOk`/`encoderOk` outcomes of those
external calls — then compute `delay = (100.0 / framerate) as u16` once and
start with no frames. -/
def Animation.new (fileOk encoderOk : Bool) (framerate : ℚ) :
    Except AnimationError Animation :=
  if fileOk then
    if encoderOk then
      Except.ok { delay := u16cast (100 / framerate), frames := [] }
    else
      Except.error AnimationError.EncoderError
  else
    Except.error AnimationError.FileCreateError

/-- `Animation::add_frames` from `lib.rs`. -/
def Animation.add_frames (a : Animation) (fs : List Frame) : Animation :=
  { a with frames := a.frames ++ fs.map Frame.inner }

/-- The frame-writing loop of `Animation::write_animation`: submit the
frames in order to the external encoder, whose outcome for the `k`-th
submission is `ok k`; stop at the first failure.  Returns the run's result
together with the frames the encoder accepted (the sink's contents). -/
def writeFrames (ok : ℕ → Bool) :
    List GifFrame → ℕ → List GifFrame →
      Except AnimationError Unit × List GifFrame
  | [], _, written => (Except.ok (), written)
  | f :: rest, k, written =>
    if ok k then
      writeFrames ok rest (k + 1) (written ++ [f])
    else
      (Except.error AnimationError.FrameEncodeError, written)

/-- `Animation::write_animation` from `lib.rs`: set `frame.delay = delay`
on each frame and write it; `collect::<Result<(), _>>` stops at the first
encoder error, mapped to `FrameEncodeError`. -/
def Animation.write_animation (a : Animation) (ok : ℕ → Bool) :
    Except AnimationError Unit × List GifFrame :=
  writeFrames ok (a.frames.map fun f => { f with delay := a.delay }) 0 []

/-! ## Interpolation lemmas -/

@[simp]
theorem lerpKF_index (A B : Keyframe) (idx : ℕ) : (lerpKF A B idx).index = idx :=
  rfl

theorem interpolate_eq_some (A B : Keyframe) (idx : ℕ)
    (h1 : A.index ≤ idx) (h2 : A.index ≤ B.index) :
    A.interpolate B idx = some (lerpKF A B idx) := by
  simp [Keyframe.interpolate, checkedSub, h1, h2, lerpKF]

theorem mapM_eq_some_map {α β : Type} (f : α → Option β) (g : α → β) :
    ∀ l : List α, (∀ x ∈ l, f x = some (g x)) → l.mapM f = some (l.map g) := by
  intro l
  induction l with
  | nil => intro _; rfl
  | cons a l ih =>
    intro h
    rw [List.mapM_cons, h a (by simp),
      ih fun x hx => h x (List.mem_cons_of_mem a hx)]
    rfl

theorem interpWindow_eq (A B : Keyframe) :
    (indexRange A B).mapM (fun idx => A.interpolate B idx) =
      some ((indexRange A B).map (lerpKF A B)) := by
  apply mapM_eq_some_map
  intro idx hidx
  rw [indexRange, List.mem_range'_1] at hidx
  exact interpolate_eq_some A B idx hidx.1 (by omega)

theorem get_interpolated_frames_eq (ks : List Keyframe) :
    get_interpolated_frames ks =
      some ((windows2 ks).flatMap fun w =>
        (indexRange w.1 w.2).map (lerpKF w.1 w.2)) := by
  rw [get_interpolated_frames,
    mapM_eq_some_map _ (fun w => (indexRange w.1 w.2).map (lerpKF w.1 w.2)) _
      fun w _ => interpWindow_eq w.1 w.2]
  simp [List.flatMap]

theorem chain_head_le_getLast :
    ∀ (b : Keyframe) (l : List Keyframe),
      List.Chain' (fun x y => x.index < y.index) (b :: l) →
      b.index ≤ ((b :: l).getLast (List.cons_ne_nil b l)).index := by
  intro b l
  induction l generalizing b with
  | nil => intro _; simp
  | cons c l ih =>
    intro h
    rw [List.getLast_cons (List.cons_ne_nil c l)]
    exact le_trans (le_of_lt (List.chain'_cons.mp h).1)
      (ih c (List.chain'_cons.mp h).2)

theorem windows_flatMap_range (a b : Keyframe) (rest : List Keyframe)
    (h : List.Chain' (fun x y => x.index < y.index) (a :: b :: rest)) :
    ((windows2 (a :: b :: rest)).flatMap fun w => indexRange w.1 w.2) =
      List.range' a.index
        (((b :: rest).getLast (List.cons_ne_nil b rest)).index - a.index) := by
  induction rest generalizing a b with
  | nil => simp [windows2, indexRange]
  | cons c rest ih =>
    have hab : a.index < b.index := (List.chain'_cons.mp h).1
    have htail := (List.chain'_cons.mp h).2
    have hbl : b.index ≤ ((c :: rest).getLast (List.cons_ne_nil c rest)).index := by
      have hb := chain_head_le_getLast b (c :: rest) htail
      rwa [List.getLast_cons (List.cons_ne_nil c rest)] at hb
    have hw : windows2 (a :: b :: c :: rest) =
        (a, b) :: windows2 (b :: c :: rest) := rfl
    rw [hw, List.flatMap_cons, ih b c htail,
      List.getLast_cons (List.cons_ne_nil c rest)]
    have e1 : a.index + (b.index - a.index) = b.index := by omega
    have happ := List.range'_append_1 a.index (b.index - a.index)
      (((c :: rest).getLast (List.cons_ne_nil c rest)).index - b.index)
    rw [e1] at happ
    rw [indexRange, happ]
    congr 1
    omega

theorem map_index_interp (ks : List Keyframe) :
    (((windows2 ks).flatMap fun w =>
        (indexRange w.1 w.2).map (lerpKF w.1 w.2)).map Keyframe.index) =
      (windows2 ks).flatMap fun w => indexRange w.1 w.2 := by
  rw [List.map_flatMap]
  congr 1
  funext w
  have hid : (Keyframe.index ∘ lerpKF w.1 w.2) = id := rfl
  rw [List.map_map, hid, List.map_id]

theorem interp_length (ks : List Keyframe) :
    ((windows2 ks).flatMap fun w =>
        (indexRange w.1 w.2).map (lerpKF w.1 w.2)).length =
      ((windows2 ks).map fun w => w.2.index - w.1.index).sum := by
  simp only [List.flatMap, List.length_flatten, List.map_map]
  refine congrArg List.sum (List.map_congr_left fun w _ => ?_)
  simp [indexRange]

/-! ## Claim theorems: interpolation -/

/-- Claim C1, counterexample: for the degenerate keyframe list
`[{index:5,...}, {index:5,...}]`, `get_interpolated_frames` does not fail
with a configuration error — it returns normally with the empty frame
list.  (The code has no `ConfigurationError` at all; `AnimationError` has
no such variant.) -/
theorem degenerate_keyframes_no_error :
    get_interpolated_frames
        [{ x_center := 1, y_center := 1, x_size := 1, y_size := 1, index := 5 },
         { x_center := 2, y_center := 2, x_size := 2, y_size := 2, index := 5 }] =
      some [] := by
  decide

/-- Claim C1, amended: for every keyframe list with fewer than 2 keyframes
`get_interpolated_frames` returns normally with an empty result, and for
every keyframe list whatsoever (equal adjacent indices included) it
returns normally — without dividing by zero, crashing, or looping
infinitely — rather than failing with a configuration error. -/
theorem few_or_equal_keyframes_ok (ks : List Keyframe) :
    (ks.length < 2 → get_interpolated_frames ks = some []) ∧
      (get_interpolated_frames ks).isSome := by
  constructor
  · intro h
    match ks, h with
    | [], _ => rfl
    | [k], _ => rfl
  · rw [get_interpolated_frames_eq]
    rfl

/-- Witness for `few_or_equal_keyframes_ok` at a singleton list. -/
theorem few_or_equal_keyframes_ok_witness :
    (get_interpolated_frames [⟨1, 2, 3, 4, 5⟩] = some []) ∧
      (get_interpolated_frames [⟨1, 2, 3, 4, 5⟩]).isSome :=
  ⟨(few_or_equal_keyframes_ok [⟨1, 2, 3, 4, 5⟩]).1 (by decide),
   (few_or_equal_keyframes_ok [⟨1, 2, 3, 4, 5⟩]).2⟩

/-- Claim C3: for every sequence of at least 2 keyframes with strictly
increasing indices, `get_interpolated_frames` succeeds, its frame indices
are exactly the integers of `[first.index, last.index)` in increasing
order, its length is the sum over consecutive keyframe windows of
`next.index - prev.index`, and the last keyframe's own index is not
emitted. -/
theorem get_interpolated_frames_complete (a b : Keyframe)
    (rest : List Keyframe)
    (h : List.Chain' (fun x y => x.index < y.index) (a :: b :: rest)) :
    ∃ l, get_interpolated_frames (a :: b :: rest) = some l ∧
      l.map Keyframe.index =
        List.range' a.index
          (((b :: rest).getLast (List.cons_ne_nil b rest)).index - a.index) ∧
      l.length =
        ((windows2 (a :: b :: rest)).map fun w => w.2.index - w.1.index).sum ∧
      ((b :: rest).getLast (List.cons_ne_nil b rest)).index ∉
        l.map Keyframe.index := by
  refine ⟨_, get_interpolated_frames_eq _, ?_, interp_length _, ?_⟩
  · rw [map_index_interp, windows_flatMap_range a b rest h]
  · rw [map_index_interp, windows_flatMap_range a b rest h,
      List.mem_range'_1]
    omega

/-- Witness for `get_interpolated_frames_complete` on indices `0 < 2 < 3`. -/
theorem get_interpolated_frames_complete_witness :
    ∃ l, get_interpolated_frames
        [⟨0, 0, 1, 1, 0⟩, ⟨1, 1, 1, 1, 2⟩, ⟨2, 2, 2, 2, 3⟩] = some l ∧
      l.map Keyframe.index =
        List.range' 0
          ((([⟨1, 1, 1, 1, 2⟩, ⟨2, 2, 2, 2, 3⟩] :
              List Keyframe).getLast (List.cons_ne_nil _ _)).index - 0) ∧
      l.length =
        ((windows2 [⟨0, 0, 1, 1, 0⟩, ⟨1, 1, 1, 1, 2⟩, ⟨2, 2, 2, 2, 3⟩]).map
          fun w => w.2.index - w.1.index).sum ∧
      (([⟨1, 1, 1, 1, 2⟩, ⟨2, 2, 2, 2, 3⟩] :
          List Keyframe).getLast (List.cons_ne_nil _ _)).index ∉
        l.map Keyframe.index :=
  get_interpolated_frames_complete ⟨0, 0, 1, 1, 0⟩ ⟨1, 1, 1, 1, 2⟩
    [⟨2, 2, 2, 2, 3⟩] (by simp [List.chain'_cons])

/-- Claim C10: for every keyframe list — empty, singleton, equal or
decreasing adjacent indices included — `get_interpolated_frames` returns
normally (no panic: `none` models a panic and is never produced), and a
window whose second index is not strictly greater than the first has an
empty index range, so it contributes no frames. -/
theorem get_interpolated_frames_no_panic (ks : List Keyframe) :
    (∃ l, get_interpolated_frames ks = some l) ∧
      ∀ w ∈ windows2 ks, w.2.index ≤ w.1.index → indexRange w.1 w.2 = [] := by
  constructor
  · exact ⟨_, get_interpolated_frames_eq ks⟩
  · intro w _ hle
    simp [indexRange, Nat.sub_eq_zero_of_le hle]

/-- Witness for `get_interpolated_frames_no_panic` on a decreasing pair. -/
theorem get_interpolated_frames_no_panic_witness :
    (∃ l, get_interpolated_frames [⟨1, 2, 3, 4, 7⟩, ⟨5, 6, 7, 8, 5⟩] = some l) ∧
      indexRange ⟨1, 2, 3, 4, 7⟩ ⟨5, 6, 7, 8, 5⟩ = [] :=
  ⟨(get_interpolated_frames_no_panic [⟨1, 2, 3, 4, 7⟩, ⟨5, 6, 7, 8, 5⟩]).1,
   (get_interpolated_frames_no_panic [⟨1, 2, 3, 4, 7⟩, ⟨5, 6, 7, 8, 5⟩]).2
     (⟨1, 2, 3, 4, 7⟩, ⟨5, 6, 7, 8, 5⟩) (by decide) (by decide)⟩

/-- Claim C6: for adjacent keyframes `A` (index `i0`) and `B`
(index `i1 > i0`) and every `idx` with `i0 ≤ idx < i1`, the interpolated
viewport's four fields are each `A.v + (B.v - A.v) * t` with
`t = (idx - i0) / (i1 - i0)` (rational subtraction), and at `idx = i0` the
result equals `A` exactly. -/
theorem interpolate_linear (A B : Keyframe) (idx : ℕ)
    (h1 : A.index ≤ idx) (h2 : idx < B.index) :
    A.interpolate B idx =
        some { x_center := A.x_center + (B.x_center - A.x_center) *
                 (((idx : ℚ) - (A.index : ℚ)) / ((B.index : ℚ) - (A.index : ℚ)))
               y_center := A.y_center + (B.y_center - A.y_center) *
                 (((idx : ℚ) - (A.index : ℚ)) / ((B.index : ℚ) - (A.index : ℚ)))
               x_size := A.x_size + (B.x_size - A.x_size) *
                 (((idx : ℚ) - (A.index : ℚ)) / ((B.index : ℚ) - (A.index : ℚ)))
               y_size := A.y_size + (B.y_size - A.y_size) *
                 (((idx : ℚ) - (A.index : ℚ)) / ((B.index : ℚ) - (A.index : ℚ)))
               index := idx } ∧
      (idx = A.index → A.interpolate B idx = some A) := by
  have hab : A.index ≤ B.index := le_of_lt (lt_of_le_of_lt h1 h2)
  constructor
  · rw [interpolate_eq_some A B idx h1 hab]
    simp only [lerpKF, Nat.cast_sub h1, Nat.cast_sub hab]
  · intro he
    rw [interpolate_eq_some A B idx h1 hab]
    subst he
    simp [lerpKF]

/-- Witness for `interpolate_linear` at the first keyframe of `main.rs`
and `idx = A.index`: the identity at `t = 0`. -/
theorem interpolate_linear_witness :
    Keyframe.interpolate ⟨-3/4, 0, 7/2, 7/2, 0⟩ ⟨-27/20, 0, 1/5, 1/5, 100⟩ 0 =
      some ⟨-3/4, 0, 7/2, 7/2, 0⟩ :=
  (interpolate_linear ⟨-3/4, 0, 7/2, 7/2, 0⟩ ⟨-27/20, 0, 1/5, 1/5, 100⟩ 0
    (by decide) (by decide)).2 rfl

/-! ## Claim theorems: coordinate mapper -/

/-- Claim C7, counterexample: with viewport centered at `(0,0)` of size
`2 × 2` and dimensions `W = H = 1`, the center pixel `(W/2, H/2) = (0,0)`
maps to `(-1, 1)`, a full unit away from the center `(0, 0)` — not within
any floating-point rounding tolerance. -/
theorem get_coordinate_center_counterexample :
    ({ x_center := 0, y_center := 0, x_size := 2, y_size := 2, index := 0 } :
        Keyframe).get_coordinate (1 / 2) (1 / 2) 1 1 = (-1, 1) ∧
      ((-1 : ℚ), (1 : ℚ)) ≠ ((0 : ℚ), (0 : ℚ)) := by
  norm_num [Keyframe.get_coordinate, Prod.ext_iff]

/-- Claim C7, amended: for every viewport `V` and positive even dimensions
`W, H`, `get_coordinate` applied to the center pixel `(W/2, H/2)` yields
exactly `(V.x_center, V.y_center)` in exact arithmetic (for odd dimensions
the integer pixel `(W/2, H/2)` is off center by half a pixel, shifting the
result by `x_size/(2W)` resp. `y_size/(2H)`); the mapper is a total pure
function. -/
theorem get_coordinate_center (V : Keyframe) (W H : ℕ)
    (hW : 0 < W) (hH : 0 < H) (h2W : 2 ∣ W) (h2H : 2 ∣ H) :
    V.get_coordinate (W / 2) (H / 2) W H = (V.x_center, V.y_center) := by
  obtain ⟨m, rfl⟩ := h2W
  obtain ⟨n, rfl⟩ := h2H
  have hm : (m : ℚ) ≠ 0 := by
    have h0 : 0 < m := by omega
    exact_mod_cast h0.ne'
  have hn : (n : ℚ) ≠ 0 := by
    have h0 : 0 < n := by omega
    exact_mod_cast h0.ne'
  have e1 : 2 * m / 2 = m := by omega
  have e2 : 2 * n / 2 = n := by omega
  simp only [Keyframe.get_coordinate, e1, e2, Prod.mk.injEq]
  constructor
  · push_cast
    field_simp
    ring
  · push_cast
    field_simp
    ring

/-- Witness for `get_coordinate_center`: the first keyframe of `main.rs`
at the 500 × 500 dimensions of `main.rs`. -/
theorem get_coordinate_center_witness :
    (⟨-3/4, 0, 7/2, 7/2, 0⟩ : Keyframe).get_coordinate (500 / 2) (500 / 2)
        500 500 = (-3/4, 0) :=
  get_coordinate_center ⟨-3/4, 0, 7/2, 7/2, 0⟩ 500 500 (by decide) (by decide)
    (by decide) (by decide)

/-! ## Escape-time loop lemmas -/

theorem mandelLoop_iters_le (c : Complex) :
    ∀ (fuel : ℕ) (z : Complex) (iters : ℕ), iters ≤ MAX_ITER →
      (mandelLoop c fuel z iters).2 ≤ MAX_ITER := by
  intro fuel
  induction fuel with
  | zero => intro z iters h; exact h
  | succ fuel ih =>
    intro z iters h
    rw [mandelLoop]
    split
    · next hguard => exact ih _ _ (by omega)
    · exact h

theorem mandelLoop_exit (c : Complex) :
    ∀ (fuel : ℕ) (z : Complex) (iters : ℕ), MAX_ITER - iters ≤ fuel →
      ¬(((mandelLoop c fuel z iters).1).norm < 8192 ∧
        (mandelLoop c fuel z iters).2 < MAX_ITER) := by
  intro fuel
  induction fuel with
  | zero =>
    intro z iters h
    rw [mandelLoop]
    rintro ⟨-, h2⟩
    omega
  | succ fuel ih =>
    intro z iters h
    rw [mandelLoop]
    split
    · next hguard =>
      obtain ⟨h1, h2⟩ := hguard
      exact ih _ _ (by omega)
    · next hguard => exact hguard

/-! ## Claim theorems: escape-time colorizer -/

/-- Claim C5: the internal iteration counter of `calc_pixel` never exceeds
`MAX_ITER` (255) from any loop state whose counter is in bounds (starting
from the actual initial state in particular), the final state does not
satisfy the loop guard, the loop continues exactly when
`z.x² + z.y² < 8192` and `iters < MAX_ITER`, and it stops as soon as that
guard fails. -/
theorem iteration_bound (p : ℚ × ℚ) :
    (∀ (fuel : ℕ) (z : Complex) (iters : ℕ), iters ≤ MAX_ITER →
        (mandelLoop ⟨p.1, p.2⟩ fuel z iters).2 ≤ MAX_ITER) ∧
      calcIters p ≤ MAX_ITER ∧
      ¬((calcZ p).norm < 8192 ∧ calcIters p < MAX_ITER) ∧
      (∀ (fuel : ℕ) (z : Complex) (iters : ℕ),
        (z.norm < 8192 ∧ iters < MAX_ITER) →
        mandelLoop ⟨p.1, p.2⟩ (fuel + 1) z iters =
          mandelLoop ⟨p.1, p.2⟩ fuel (z * z + ⟨p.1, p.2⟩) (iters + 1)) ∧
      (∀ (fuel : ℕ) (z : Complex) (iters : ℕ),
        ¬(z.norm < 8192 ∧ iters < MAX_ITER) →
        mandelLoop ⟨p.1, p.2⟩ (fuel + 1) z iters = (z, iters)) := by
  refine ⟨mandelLoop_iters_le _, mandelLoop_iters_le _ _ _ _ (by omega),
    mandelLoop_exit _ _ _ _ (by omega), ?_, ?_⟩
  · intro fuel z iters hguard
    rw [mandelLoop, if_pos hguard]
  · intro fuel z iters hguard
    rw [mandelLoop, if_neg hguard]

/-- Witness for `iteration_bound` at concrete loop states. -/
theorem iteration_bound_witness :
    (mandelLoop ⟨0, 0⟩ 2 ⟨0, 0⟩ 0).2 ≤ MAX_ITER ∧
      calcIters (0, 0) ≤ MAX_ITER ∧
      ¬((calcZ (0, 0)).norm < 8192 ∧ calcIters (0, 0) < MAX_ITER) ∧
      mandelLoop ⟨0, 0⟩ 3 ⟨0, 0⟩ 0 =
        mandelLoop ⟨0, 0⟩ 2 (⟨0, 0⟩ * ⟨0, 0⟩ + ⟨0, 0⟩) 1 ∧
      mandelLoop ⟨0, 0⟩ 3 ⟨100, 0⟩ 0 = (⟨100, 0⟩, 0) :=
  ⟨(iteration_bound (0, 0)).1 2 ⟨0, 0⟩ 0 (by decide),
   (iteration_bound (0, 0)).2.1,
   (iteration_bound (0, 0)).2.2.1,
   (iteration_bound (0, 0)).2.2.2.1 2 ⟨0, 0⟩ 0
     ⟨by norm_num [Complex.norm], by decide⟩,
   (iteration_bound (0, 0)).2.2.2.2 2 ⟨100, 0⟩ 0
     (by norm_num [Complex.norm, MAX_ITER])⟩

/-- Claim C4: `calc_pixel` returns pure black `(0,0,0)` exactly when the
loop exits with the iteration cap reached (`iters = MAX_ITER`), and
otherwise returns the smooth color the specification describes —
`nu = log2(log2(|z|²)/2)/log2(10)`, `intensity = (iters + 1 - nu)/MAX_ITER`,
channels `(intensity², intensity, sqrt intensity)` each scaled to 8 bits by
multiplying by 255 and truncating (`specEscapeColor` spells out exactly the
specification's formula). -/
theorem calc_pixel_spec_color (p : ℚ × ℚ) :
    calc_pixel p =
      if calcIters p = MAX_ITER then { r := 0, g := 0, b := 0, a := 255 }
      else specEscapeColor (calcIters p) (calcZ p).norm := by
  have hle : calcIters p ≤ MAX_ITER :=
    mandelLoop_iters_le ⟨p.1, p.2⟩ MAX_ITER ⟨0, 0⟩ 0 (by omega)
  by_cases hlt : calcIters p < MAX_ITER
  · rw [calc_pixel, if_pos hlt, if_neg (by omega)]
    rfl
  · rw [calc_pixel, if_neg hlt, if_pos (by omega)]
    simp only [Pixel.from_rgb, u8cast, mul_zero, Int.floor_zero, Int.toNat_zero]
    rfl

/-! ## Parallel renderer lemmas -/

theorem foldl_set_length (render : ℕ → Frame) :
    ∀ (order : List ℕ) (acc : List Frame),
      (order.foldl (fun acc i => acc.set i (render i)) acc).length =
        acc.length := by
  intro order
  induction order with
  | nil => intro acc; rfl
  | cons j rest ih =>
    intro acc
    rw [List.foldl_cons, ih]
    simp

theorem foldl_set_not_mem (render : ℕ → Frame) :
    ∀ (order : List ℕ) (acc : List Frame) (i : ℕ), i ∉ order →
      (order.foldl (fun acc i => acc.set i (render i)) acc)[i]? = acc[i]? := by
  intro order
  induction order with
  | nil => intro acc i _; rfl
  | cons j rest ih =>
    intro acc i hi
    rw [List.foldl_cons, ih _ i fun h => hi (List.mem_cons_of_mem _ h)]
    exact List.getElem?_set_ne fun he => hi (by
      rw [← he]
      exact List.mem_cons_self j rest)

theorem foldl_set_mem (render : ℕ → Frame) :
    ∀ (order : List ℕ) (acc : List Frame) (i : ℕ),
      order.Nodup → i ∈ order → i < acc.length →
      (order.foldl (fun acc i => acc.set i (render i)) acc)[i]? =
        some (render i) := by
  intro order
  induction order with
  | nil =>
    intro acc i _ hmem _
    cases hmem
  | cons j rest ih =>
    intro acc i hnd hmem hlen
    rw [List.foldl_cons]
    rcases List.mem_cons.mp hmem with rfl | hmem2
    · rw [foldl_set_not_mem render rest _ i (List.nodup_cons.mp hnd).1]
      exact List.getElem?_set_self hlen
    · exact ih _ i (List.nodup_cons.mp hnd).2 hmem2 (by simpa using hlen)

theorem renderSlots_perm (n : ℕ) (render : ℕ → Frame) (order : List ℕ)
    (h : order.Perm (List.range n)) :
    renderSlots n render order = (List.range n).map render := by
  have hnd : order.Nodup := h.symm.nodup (List.nodup_range n)
  have hmem : ∀ i, i ∈ order ↔ i < n := fun i => by
    rw [h.mem_iff, List.mem_range]
  apply List.ext_getElem?
  intro i
  by_cases hi : i < n
  · rw [renderSlots,
      foldl_set_mem render order _ i hnd ((hmem i).mpr hi) (by simpa using hi)]
    simp [hi]
  · rw [renderSlots, foldl_set_not_mem render order _ i fun hmo => hi ((hmem i).mp hmo)]
    rw [List.getElem?_eq_none (by simpa using hi),
      List.getElem?_eq_none (by simpa using hi)]

/-! ## Claim theorems: parallel frame renderer -/

/-- Claim C8: for every order in which the worker threads of
`frames_native` complete — any permutation of the slot indices — the final
collected frame list has, at every position `i`, the rendering of
interpolated viewport `i`: the result equals the in-index-order list of
rendered viewports, with each worker writing only its own preallocated
slot. -/
theorem frames_native_ordered (order : List ℕ)
    (h : order.Perm (List.range interpolatedKeyframes.length)) :
    frames_native order =
      (List.range interpolatedKeyframes.length).map
        fun i => renderOne (interpolatedKeyframes.getD i default) :=
  renderSlots_perm interpolatedKeyframes.length
    (fun i => renderOne (interpolatedKeyframes.getD i default)) order h

/-- Witness for `frames_native_ordered`: workers completing in exactly
reverse index order still produce the index-ordered frame list. -/
theorem frames_native_ordered_witness :
    frames_native (List.range interpolatedKeyframes.length).reverse =
      (List.range interpolatedKeyframes.length).map
        fun i => renderOne (interpolatedKeyframes.getD i default) :=
  frames_native_ordered (List.range interpolatedKeyframes.length).reverse
    (List.reverse_perm (List.range interpolatedKeyframes.length))

/-! ## Animation assembler lemmas -/

theorem writeFrames_spec (ok : ℕ → Bool) :
    ∀ (l : List GifFrame) (k : ℕ) (written : List GifFrame),
      ∃ j, j ≤ l.length ∧
        (writeFrames ok l k written).2 = written ++ l.take j ∧
        ((writeFrames ok l k written).1 = Except.ok () ↔ j = l.length) ∧
        (∀ i < j, ok (k + i) = true) ∧
        (j < l.length → ok (k + j) = false ∧
          (writeFrames ok l k written).1 =
            Except.error AnimationError.FrameEncodeError) := by
  intro l
  induction l with
  | nil =>
    intro k written
    exact ⟨0, by simp [writeFrames]⟩
  | cons f rest ih =>
    intro k written
    by_cases hk : ok k = true
    · obtain ⟨j, hj1, hj2, hj3, hj4, hj5⟩ := ih (k + 1) (written ++ [f])
      refine ⟨j + 1, by simpa using hj1, ?_, ?_, ?_, ?_⟩
      · rw [writeFrames, if_pos hk, hj2, List.take_succ_cons]
        simp
      · rw [writeFrames, if_pos hk]
        exact ⟨fun h => by have := hj3.mp h; simpa using this,
          fun h => hj3.mpr (by simpa using h)⟩
      · intro i hi
        cases i with
        | zero => simpa using hk
        | succ i =>
          rw [show k + (i + 1) = k + 1 + i by omega]
          exact hj4 i (by omega)
      · intro hlt
        rw [writeFrames, if_pos hk]
        have h5 := hj5 (by simpa using hlt)
        exact ⟨by rw [show k + (j + 1) = k + 1 + j by omega]; exact h5.1,
          h5.2⟩
    · refine ⟨0, Nat.zero_le _, ?_, ?_, ?_, ?_⟩
      · rw [writeFrames, if_neg hk]
        simp
      · rw [writeFrames, if_neg hk]
        simp
      · intro i hi
        exact absurd hi (by omega)
      · intro _
        rw [writeFrames, if_neg hk]
        exact ⟨by simpa using hk, rfl⟩

theorem write_animation_delay (a : Animation) (ok : ℕ → Bool) :
    ∀ g ∈ (a.write_animation ok).2, g.delay = a.delay := by
  intro g hg
  obtain ⟨j, _, h2, _, _, _⟩ :=
    writeFrames_spec ok (a.frames.map fun f => { f with delay := a.delay }) 0 []
  rw [Animation.write_animation, h2, List.nil_append] at hg
  have hmem : g ∈ a.frames.map fun f => { f with delay := a.delay } :=
    List.mem_of_mem_take hg
  obtain ⟨f, -, rfl⟩ := List.mem_map.mp hmem
  rfl

/-! ## Claim theorems: animation assembler -/

/-- Claim C2, counterexample: for framerate 60 the code computes the delay
`(100.0 / 60.0) as u16 = 1` centisecond, but `round(100/60) = 2`: the
delay is truncated, not rounded as the claim states. -/
theorem animation_delay_not_rounded :
    Animation.new true true 60 = Except.ok { delay := 1, frames := [] } ∧
      round ((100 : ℚ) / 60) = 2 := by
  constructor
  · have hfl : ⌊(100 : ℚ) / 60⌋ = 1 := by
      rw [Int.floor_eq_iff]
      norm_num
    simp [Animation.new, u16cast, hfl]
  · rw [round_eq]
    have : ⌊(100 : ℚ) / 60 + 1 / 2⌋ = 2 := by
      rw [Int.floor_eq_iff]
      norm_num
    simpa using this

/-- Claim C2, amended: `Animation::new` computes the per-frame delay once,
as the truncation (saturating `u16` cast, not rounding) of
`100 / framerate` centiseconds, and `write_animation` attaches this same
delay to every frame it submits; for framerate 24 the delay is 4
centiseconds. -/
theorem animation_delay_truncated (framerate : ℚ) (fs : List Frame)
    (ok : ℕ → Bool) (h : 0 < framerate) :
    ∃ a, Animation.new true true framerate = Except.ok a ∧
      (a.delay : ℤ) = min 65535 ⌊100 / framerate⌋ ∧
      (∀ g ∈ ((Animation.add_frames a fs).write_animation ok).2,
        g.delay = a.delay) ∧
      (framerate = 24 → a.delay = 4) := by
  refine ⟨_, rfl, ?_, ?_, ?_⟩
  · have hpos : (0 : ℚ) ≤ 100 / framerate := by positivity
    have hfl : (0 : ℤ) ≤ ⌊(100 : ℚ) / framerate⌋ := Int.floor_nonneg.mpr hpos
    simp only [u16cast]
    omega
  · intro g hg
    exact write_animation_delay (Animation.add_frames _ fs) ok g hg
  · intro h24
    subst h24
    have hfl : ⌊(100 : ℚ) / 24⌋ = 4 := by
      rw [Int.floor_eq_iff]
      norm_num
    simp [u16cast, hfl]

/-- Witness for `animation_delay_truncated` at the framerate 24 of
`main.rs` with no frames. -/
theorem animation_delay_truncated_witness :
    ∃ a, Animation.new true true 24 = Except.ok a ∧
      (a.delay : ℤ) = min 65535 ⌊(100 : ℚ) / 24⌋ ∧
      (∀ g ∈ ((Animation.add_frames a []).write_animation fun _ => true).2,
        g.delay = a.delay) ∧
      ((24 : ℚ) = 24 → a.delay = 4) :=
  animation_delay_truncated 24 [] (fun _ => true) (by norm_num)

/-- Claim C9, counterexample: with two frames queued and the external
encoder accepting the first submission but rejecting the second,
`write_animation` aborts with `FrameEncodeError` — but the first frame has
already been submitted to the sink, so a partial frame sequence was
submitted and a partial output file exists, contradicting the claim. -/
theorem write_animation_partial_submission :
    (Animation.write_animation ⟨4, [⟨0, [1]⟩, ⟨0, [2]⟩]⟩ fun k => k == 0) =
      (Except.error AnimationError.FrameEncodeError, [⟨4, [1]⟩]) := by
  rfl

/-- Claim C9, amended: every failure aborts the run with a descriptive
error — `Animation::new` surfaces `FileCreateError` or `EncoderError`
before any frame is handled, and a rejected frame submission makes
`write_animation` stop at the first failing frame `j` with
`FrameEncodeError`, never submitting frame `j` or any later frame; the
run succeeds exactly when every submission succeeds.  However, the frames
before the first failure have already been submitted to the sink by then,
so a partial frame sequence (a partial output file) can exist. -/
theorem write_animation_fail_fast (a : Animation) (ok : ℕ → Bool) :
    (∃ j, j ≤ a.frames.length ∧
        (a.write_animation ok).2 =
          (a.frames.map fun f => { f with delay := a.delay }).take j ∧
        ((a.write_animation ok).1 = Except.ok () ↔ j = a.frames.length) ∧
        (∀ i < j, ok i = true) ∧
        (j < a.frames.length → ok j = false ∧
          (a.write_animation ok).1 =
            Except.error AnimationError.FrameEncodeError)) ∧
      (∀ (e : Bool) (fr : ℚ), Animation.new false e fr =
        Except.error AnimationError.FileCreateError) ∧
      (∀ fr : ℚ, Animation.new true false fr =
        Except.error AnimationError.EncoderError) := by
  refine ⟨?_, fun e fr => rfl, fun fr => rfl⟩
  obtain ⟨j, h1, h2, h3, h4, h5⟩ :=
    writeFrames_spec ok (a.frames.map fun f => { f with delay := a.delay }) 0 []
  refine ⟨j, by simpa using h1, by simpa using h2, ?_, ?_, ?_⟩
  · rw [Animation.write_animation]
    exact ⟨fun hok => by have := h3.mp hok; simpa using this,
      fun hj => h3.mpr (by simpa using hj)⟩
  · intro i hi
    simpa using h4 i hi
  · intro hlt
    have h5i := h5 (by simpa using hlt)
    exact ⟨by simpa using h5i.1, h5i.2⟩

/-- Witness for `write_animation_fail_fast`: the concrete two-frame
animation whose second submission fails. -/
theorem write_animation_fail_fast_witness :
    (∃ j, j ≤ (Animation.mk 4 [⟨0, [1]⟩, ⟨0, [2]⟩]).frames.length ∧
        (Animation.write_animation ⟨4, [⟨0, [1]⟩, ⟨0, [2]⟩]⟩
            fun k => k == 0).2 =
          ((Animation.mk 4 [⟨0, [1]⟩, ⟨0, [2]⟩]).frames.map
            fun f => { f with delay := (Animation.mk 4 [⟨0, [1]⟩, ⟨0, [2]⟩]).delay }).take j ∧
        ((Animation.write_animation ⟨4, [⟨0, [1]⟩, ⟨0, [2]⟩]⟩
            fun k => k == 0).1 = Except.ok () ↔
          j = (Animation.mk 4 [⟨0, [1]⟩, ⟨0, [2]⟩]).frames.length) ∧
        (∀ i < j, (fun k => k == 0) i = true) ∧
        (j < (Animation.mk 4 [⟨0, [1]⟩, ⟨0, [2]⟩]).frames.length →
          (fun k => k == 0) j = false ∧
          (Animation.write_animation ⟨4, [⟨0, [1]⟩, ⟨0, [2]⟩]⟩
              fun k => k == 0).1 =
            Except.error AnimationError.FrameEncodeError)) ∧
      (∀ (e : Bool) (fr : ℚ), Animation.new false e fr =
        Except.error AnimationError.FileCreateError) ∧
      (∀ fr : ℚ, Animation.new true false fr =
        Except.error AnimationError.EncoderError) :=
  write_animation_fail_fast ⟨4, [⟨0, [1]⟩, ⟨0, [2]⟩]⟩ fun k => k == 0

end Mandelbrot
